import Mathlib

/-!
Verification of the core parsing routines of the `irc` package
(`message.go`, `entity.go`, `utils.go`).

Modelling conventions:
* Go strings are modelled as `List Char` (one element per rune; all inputs of
  interest are ASCII, where Go's byte indexing and rune indexing coincide).
* `strings.Index(s, c)` for a single-character needle is modelled by
  `strIndex?`, returning `none` for Go's `-1`.
* Go slice expressions are modelled by `List.take` / `List.drop`; a slice
  expression whose bounds Go would reject at runtime (a panic) makes the
  surrounding function return `none`, so a Go function that can panic is
  modelled with an `Option` result, `none` meaning "panics".
* `strconv.Atoi` (64-bit `int`) is modelled by `atoi?` with explicit range
  checks against `2 ^ 63`.
-/

/-- Index of the first occurrence of `ch` in the list, `none` if absent.
Models Go `strings.Index(s, string(ch))` (which returns `-1` if absent). -/
def strIndex? (ch : Char) : List Char → Option Nat
  | [] => none
  | c :: rest => if c = ch then some 0 else (strIndex? ch rest).map (· + 1)

/-- Models Go `strings.ToUpper` restricted to ASCII (all commands of the
protocol are ASCII words). -/
def toUpperStr (l : List Char) : List Char := l.map Char.toUpper

/-- Models Go `strings.TrimRight(s, " ")`. -/
def trimRightSpaces (l : List Char) : List Char := l.rdropWhile (· = ' ')

/-- Cutset test for `NewMessage`: NUL, LF, CR (`string([]rune{0, 10, 13})`). -/
def isCut (c : Char) : Bool := c.toNat = 0 || c.toNat = 10 || c.toNat = 13

/-- Models Go `strings.Trim(s, cutset)` for the NUL/LF/CR cutset: removes the
maximal run of cutset characters from both ends. -/
def goTrim (s : List Char) : List Char := (s.dropWhile isCut).rdropWhile isCut

/-- message.go `NewMessage`: trim NUL/LF/CR from both ends; if a NUL byte
remains (Go: `strings.IndexAny(r, string(rune(0))) != -1`) the message is
replaced by the empty message. -/
def NewMessage (s : List Char) : List Char :=
  let r := goTrim s
  if r.contains (Char.ofNat 0) then [] else r

/-- message.go `Message.IsEmpty`. -/
def IsEmptyM (m : List Char) : Bool := m.isEmpty

/-- message.go `Message.HasPrefix`: first character is `':'` (false on empty). -/
def HasPrefixM (m : List Char) : Bool := m.head? = some ':'

/-- message.go `Message.HasTrailing`. -/
def HasTrailing (m : List Char) : Bool :=
  if IsEmptyM m then false
  else if HasPrefixM m then (strIndex? ':' m.tail).isSome
  else (strIndex? ':' m).isSome

/-- The final statement of message.go `Message.Command`:
`strings.ToUpper(s[:strings.Index(s, " ")])`. When `s` contains no space,
`strings.Index` yields `-1` and the slice `s[:-1]` panics, hence `none`. -/
def commandFrom (s : List Char) : Option (List Char) :=
  match strIndex? ' ' s with
  | some i => some (toUpperStr (s.take i))
  | none => none

/-- message.go `Message.Command`. Empty message gives `""`; with a prefix the
first space must be followed by at least one character, otherwise `""` is
returned early; the final slice can panic (see `commandFrom`). -/
def Command (m : List Char) : Option (List Char) :=
  if IsEmptyM m then some [] else
  if HasPrefixM m then
    match strIndex? ' ' m with
    | some i => if i + 1 < m.length then commandFrom (m.drop (i + 1)) else some []
    | none => some []
  else commandFrom m

/-- Value of a digit string, most significant first (the accumulator loop of
`strconv.ParseInt` in base 10). -/
def digitsVal (l : List Char) : Nat := l.foldl (fun a c => 10 * a + (c.toNat - 48)) 0

/-- Digit-part handling of `strconv.Atoi` / `ParseInt(s, 10, 0)` on a 64-bit
platform: one or more decimal digits, value within the signed 64-bit range
(which depends on the sign). -/
def atoiCore? (neg : Bool) (ds : List Char) : Option Int :=
  if ds.isEmpty then none
  else if ds.all Char.isDigit then
    if neg then
      if digitsVal ds ≤ 2 ^ 63 then some (-(digitsVal ds : Int)) else none
    else
      if digitsVal ds ≤ 2 ^ 63 - 1 then some (digitsVal ds : Int) else none
  else none

/-- Models Go `strconv.Atoi`: an optional leading `'+'` or `'-'` sign
(checked first, as in `strconv.ParseInt`), then digits. -/
def atoi? (s : List Char) : Option Int :=
  match s with
  | [] => none
  | c :: rest =>
    if c = '+' then atoiCore? false rest
    else if c = '-' then atoiCore? true rest
    else atoiCore? false (c :: rest)

/-- message.go `Message.IsNumeric`: `strconv.Atoi(m.Command())` succeeds.
Inherits a possible panic from `Command` (`none`). -/
def IsNumeric (m : List Char) : Option Bool :=
  (Command m).map (fun c => (atoi? c).isSome)

/-- message.go `Message.Numeric`: the `Atoi` value of the command, `-1` on
parse error. Inherits a possible panic from `Command` (`none`). -/
def Numeric (m : List Char) : Option Int :=
  (Command m).map (fun c =>
    match atoi? c with
    | some v => v
    | none => -1)

/-- message.go `Message.Prefix`. The entity starts out empty; whenever the
message contains a space at index `i`, the code assigns `m[1:i]`
unconditionally (it does not re-check `HasPrefix`). The slice `m[1:i]`
panics when `i = 0`, hence `none` in that case. -/
def PrefixM (m : List Char) : Option (List Char) :=
  match strIndex? ' ' m with
  | some i => if 1 ≤ i then some ((m.drop 1).take (i - 1)) else none
  | none => some []

/-- The prefix-skipping step shared by `Middle` and `Trailing`:
`s = s[1:]`, then require a space with at least one character after it,
otherwise the Go code returns `""` early (modelled by `none`). -/
def skipPfx (m : List Char) : Option (List Char) :=
  let s := m.drop 1
  match strIndex? ' ' s with
  | some i => if i + 1 < s.length then some (s.drop (i + 1)) else none
  | none => none

/-- message.go `Message.Middle`: skip the prefix, skip the command word, then
cut everything from the first `':'` on and trim trailing spaces. -/
def Middle (m : List Char) : List Char :=
  if IsEmptyM m then [] else
  match (if HasPrefixM m then skipPfx m else some m) with
  | none => []
  | some s =>
    match strIndex? ' ' s with
    | some i =>
      if i < s.length then
        let s2 := s.drop (i + 1)
        match strIndex? ':' s2 with
        | some j => trimRightSpaces (s2.take j)
        | none => s2
      else []
    | none => []

/-- message.go `Message.Trailing`: skip the prefix, then everything after the
first `':'` (which must not be the last character, else `""`). -/
def Trailing (m : List Char) : List Char :=
  if IsEmptyM m then [] else
  match (if HasPrefixM m then skipPfx m else some m) with
  | none => []
  | some s =>
    match strIndex? ':' s with
    | some i => if i + 1 < s.length then s.drop (i + 1) else []
    | none => []

/-- entity.go `Entity.IsChan`: starts with `'#'` and has length > 1. -/
def IsChan (e : List Char) : Bool := e.head? = some '#' && decide (1 < e.length)

/-- entity.go `Entity.IsHostmask`: the first `'!'` occurs strictly before the
first `'@'` (Go: `b > a && a > -1` on the two `strings.Index` results). -/
def IsHostmask (e : List Char) : Bool :=
  match strIndex? '!' e, strIndex? '@' e with
  | some a, some b => decide (a < b)
  | _, _ => false

/-- entity.go `Entity.IsName`: neither a channel nor a hostmask. -/
def IsName (e : List Char) : Bool := !IsChan e && !IsHostmask e

/-- utils.go channel mode bits (`1 << iota`). -/
def CmVoice : Nat := 1

/-- utils.go `CmHalfOp`. -/
def CmHalfOp : Nat := 2

/-- utils.go `CmOp`. -/
def CmOp : Nat := 4

/-- utils.go `CmAdmin`. -/
def CmAdmin : Nat := 8

/-- utils.go `CmOwner`. -/
def CmOwner : Nat := 16

/-- The loop of utils.go `ParseChannelModes` with the accumulated mode set
`cm` as state.  Note the fall-through when the whole string is consumed:
the Go code executes `return "", 0`, discarding `cm`. -/
def parseChannelModesGo (cm : Nat) : List Char → List Char × Nat
  | [] => ([], 0)
  | c :: rest =>
    if c = '~' then parseChannelModesGo (cm ||| CmOwner) rest
    else if c = '&' then parseChannelModesGo (cm ||| CmAdmin) rest
    else if c = '@' then parseChannelModesGo (cm ||| CmOp) rest
    else if c = '%' then parseChannelModesGo (cm ||| CmHalfOp) rest
    else if c = '+' then parseChannelModesGo (cm ||| CmVoice) rest
    else (c :: rest, cm)

/-- utils.go `ParseChannelModes`. -/
def ParseChannelModes (s : List Char) : List Char × Nat := parseChannelModesGo 0 s

/-- utils.go `isNum`: every byte is an ASCII decimal digit (on the
one-rune pieces produced by `strings.Split(text, "")` this coincides with
`Char.isDigit`). -/
def isNumC (c : Char) : Bool := c.isDigit

/-- State-0 (`Normal`) handling of one character in utils.go
`StripControlCodes`: single-byte format codes are dropped, `0x03` enters the
color-marker state, anything else is emitted. Re-processing a character
after a failed color match (`m = 0; continue` in the Go loop) is exactly
this step, since state 0 always consumes its character. -/
def normalStep (c : Char) : List Char × Nat :=
  if c.toNat = 2 || c.toNat = 15 || c.toNat = 22 || c.toNat = 29 || c.toNat = 31 then
    ([], 0)
  else if c.toNat = 3 then ([], 1)
  else ([c], 0)

/-- One iteration of the utils.go `StripControlCodes` state machine on
character `c`; `nx` is the lookahead character `c[i+1]` used in state 3.
Returns the emitted characters and the next state. The `m = 0; continue`
branches of the Go loop re-run the same character in state 0, which is
`normalStep c` (state 0 always advances `i`). -/
def stripStep (m : Nat) (c : Char) (nx : Option Char) : List Char × Nat :=
  match m with
  | 0 => normalStep c
  | 1 => if isNumC c then ([], 2) else normalStep c
  | 2 =>
    if isNumC c then ([], 3)
    else if c = ',' then ([], 4)
    else normalStep c
  | 3 =>
    if c = ',' then
      match nx with
      | some d => if isNumC d then ([], 4) else normalStep c
      | none => normalStep c
    else normalStep c
  | 4 => if isNumC c then ([], 5) else normalStep c
  | _ => if isNumC c then ([], 0) else normalStep c

/-- The scan loop of utils.go `StripControlCodes`. -/
def stripGo (m : Nat) : List Char → List Char
  | [] => []
  | c :: rest =>
    let s := stripStep m c rest.head?
    s.1 ++ stripGo s.2 rest

/-- utils.go `StripControlCodes`. -/
def StripControlCodes (text : List Char) : List Char := stripGo 0 text

/-- Specification-side helper: recognized channel-mode sigil characters. -/
def isSigil (c : Char) : Bool :=
  c = '~' || c = '&' || c = '@' || c = '%' || c = '+'

/-- Specification-side helper: the mode bit of one sigil character. -/
def sigilBit (c : Char) : Nat :=
  if c = '~' then CmOwner
  else if c = '&' then CmAdmin
  else if c = '@' then CmOp
  else if c = '%' then CmHalfOp
  else if c = '+' then CmVoice
  else 0

/-- Specification-side helper: the OR-accumulated bits of a sigil run,
starting from `cm`. -/
def sigilBits (cm : Nat) (l : List Char) : Nat :=
  l.foldl (fun a c => a ||| sigilBit c) cm

/-- Specification-side characterization of the strings accepted by Go's
`strconv.Atoi`: an optional sign followed by one or more decimal digits,
with the value inside the signed 64-bit range for that sign. -/
def AtoiAccepts (c : List Char) : Prop :=
  ∃ sgn ds, c = sgn ++ ds ∧ (sgn = [] ∨ sgn = ['+'] ∨ sgn = ['-']) ∧
    ds ≠ [] ∧ ds.all Char.isDigit = true ∧
    (if sgn = ['-'] then digitsVal ds ≤ 2 ^ 63 else digitsVal ds ≤ 2 ^ 63 - 1)

/-- A character that `StripControlCodes` never emits: one of the single-byte
formatting codes or the color marker. -/
def cleanChar (c : Char) : Bool :=
  !(c.toNat = 2 || c.toNat = 3 || c.toNat = 15 || c.toNat = 22 || c.toNat = 29 ||
    c.toNat = 31)

/-! ### Helper lemmas about `strIndex?` -/

theorem strIndex?_eq_none_iff {ch : Char} {l : List Char} :
    strIndex? ch l = none ↔ ch ∉ l := by
  induction l with
  | nil => simp [strIndex?]
  | cons c rest ih =>
    by_cases h : c = ch
    · subst h
      simp [strIndex?]
    · have hne : ¬(ch = c) := fun hh => h hh.symm
      cases hr : strIndex? ch rest with
      | none =>
        have hm : ch ∉ rest := ih.mp hr
        simp [strIndex?, if_neg h, hr, hne, hm]
      | some k =>
        have hm : ch ∈ rest := by
          by_contra hcon
          rw [ih.mpr hcon] at hr
          exact Option.noConfusion hr
        simp [strIndex?, if_neg h, hr, hm]

theorem strIndex?_cons_self (ch : Char) (l : List Char) :
    strIndex? ch (ch :: l) = some 0 := by
  simp [strIndex?]

theorem strIndex?_append_of_some {ch : Char} {a b : List Char} {k : Nat}
    (ha : ch ∉ a) (hb : strIndex? ch b = some k) :
    strIndex? ch (a ++ b) = some (a.length + k) := by
  induction a with
  | nil => simpa using hb
  | cons c rest ih =>
    have hc : ¬(c = ch) := fun h => ha (h ▸ List.mem_cons_self c rest)
    have hrest : ch ∉ rest := fun h => ha (List.mem_cons_of_mem _ h)
    simp only [List.cons_append, strIndex?, if_neg hc, List.append_eq]
    rw [ih hrest,
      show (some (rest.length + k)).map (· + 1) = some (rest.length + k + 1) from rfl]
    congr 1
    simp only [List.length_cons]
    omega

theorem strIndex?_append_cons_self {ch : Char} {a : List Char} (b : List Char)
    (ha : ch ∉ a) :
    strIndex? ch (a ++ ch :: b) = some a.length := by
  have := strIndex?_append_of_some (b := ch :: b) ha (strIndex?_cons_self ch b)
  simpa using this

/-! ### Shared lemmas about `ParseChannelModes` -/

theorem parseChannelModesGo_all_sigils (cm : Nat) (sig : List Char)
    (hs : ∀ x ∈ sig, isSigil x = true) :
    parseChannelModesGo cm sig = ([], 0) := by
  induction sig generalizing cm with
  | nil => rfl
  | cons x sig ih =>
    have hx : isSigil x = true := hs x (List.mem_cons_self x sig)
    have hrest : ∀ y ∈ sig, isSigil y = true := fun y hy =>
      hs y (List.mem_cons_of_mem _ hy)
    simp only [isSigil, Bool.or_eq_true, decide_eq_true_eq] at hx
    rcases hx with ((((h | h) | h) | h) | h) <;>
      subst h <;>
      simp [parseChannelModesGo, ih _ hrest]

theorem parseChannelModesGo_append (cm : Nat) (sig : List Char) (c : Char)
    (rest : List Char) (hs : ∀ x ∈ sig, isSigil x = true)
    (hc : isSigil c = false) :
    parseChannelModesGo cm (sig ++ c :: rest) = (c :: rest, sigilBits cm sig) := by
  induction sig generalizing cm with
  | nil =>
    simp only [isSigil, Bool.or_eq_false_iff, decide_eq_false_iff_not] at hc
    obtain ⟨⟨⟨⟨h1, h2⟩, h3⟩, h4⟩, h5⟩ := hc
    simp [parseChannelModesGo, sigilBits, h1, h2, h3, h4, h5]
  | cons x sig ih =>
    have hx : isSigil x = true := hs x (List.mem_cons_self x sig)
    have hrest : ∀ y ∈ sig, isSigil y = true := fun y hy =>
      hs y (List.mem_cons_of_mem _ hy)
    simp only [isSigil, Bool.or_eq_true, decide_eq_true_eq] at hx
    rcases hx with ((((h | h) | h) | h) | h) <;>
      subst h <;>
      simp [parseChannelModesGo, sigilBits, ih _ hrest, sigilBit, List.foldl_cons]

/-! ### Claim theorems -/

/-- C1: the spec claims every parsing accessor is total (never panics).
The code violates this: on the raw line `"PING"` (a single word with no
space) the last line of `Message.Command` evaluates
`s[:strings.Index(s, " ")]` with index `-1`, which panics at runtime; in
the model `Command` yields `none` (= panic) on that input. -/
theorem command_panics_on_single_word : Command "PING".toList = none := by decide

/-- C2 counterexample: the claim says a raw line that does not begin with
`':'` has an empty `Prefix()`. But `Prefix` searches for a space without
re-checking `HasPrefix`, so `Prefix("PING x")` returns `"ING"`, not the
empty entity. -/
theorem prefix_nonempty_on_unprefixed_line :
    PrefixM "PING x".toList = some "ING".toList ∧
    "ING".toList ≠ ([] : List Char) := by decide

/-- C2 (amended): a raw line that does not begin with `':'` and contains no
space has an empty `Prefix()`; and for every line `":" + p + " " + rest`
with `p` containing no space, `Prefix()` returns exactly `p`. -/
theorem prefix_of_message (m p rest : List Char) :
    (m.head? ≠ some ':' → ' ' ∉ m → PrefixM m = some []) ∧
    (' ' ∉ p → PrefixM (':' :: (p ++ ' ' :: rest)) = some p) := by
  constructor
  · intro _ hm
    have hn : strIndex? ' ' m = none := strIndex?_eq_none_iff.mpr hm
    simp [PrefixM, hn]
  · intro hp
    have hidx : strIndex? ' ' (':' :: (p ++ ' ' :: rest)) = some (p.length + 1) := by
      rw [show strIndex? ' ' (':' :: (p ++ ' ' :: rest))
            = (strIndex? ' ' (p ++ ' ' :: rest)).map (· + 1) from rfl,
        strIndex?_append_cons_self rest hp]
      rfl
    simp only [PrefixM, hidx]
    simp [List.take_left]

/-- Witness for the amended C2 at concrete inputs. -/
theorem prefix_of_message_witness :
    PrefixM "PING".toList = some [] ∧
    PrefixM (':' :: ("SomeNick".toList ++ ' ' :: "671 hi".toList))
      = some "SomeNick".toList :=
  ⟨(prefix_of_message "PING".toList "SomeNick".toList "671 hi".toList).1
      (by decide) (by decide),
   (prefix_of_message "PING".toList "SomeNick".toList "671 hi".toList).2
      (by decide)⟩

/-- C4 counterexample: the claim says an all-sigil input yields the
accumulated mode bits. The loop's fall-through executes `return "", 0`,
discarding the accumulator: `ParseChannelModes("~")` is `("", 0)`, not
`("", CmOwner)`. -/
theorem parseChannelModes_discards_bits :
    ParseChannelModes "~".toList = ([], 0) ∧
    ParseChannelModes "~".toList ≠ ([], CmOwner) := by decide

/-- C4 (amended): an input consisting entirely of recognized sigils returns
the empty nickname and mode `0` (the accumulated bits are discarded by the
final `return "", 0`); otherwise each recognized leading sigil ORs in its
bit and the first unrecognized character ends the scan, with the remainder
of the string returned as the nickname together with the accumulated bits. -/
theorem parseChannelModes_amended (sig : List Char) (c : Char) (rest : List Char)
    (hs : ∀ x ∈ sig, isSigil x = true) :
    ParseChannelModes sig = ([], 0) ∧
    (isSigil c = false →
      ParseChannelModes (sig ++ c :: rest) = (c :: rest, sigilBits 0 sig)) :=
  ⟨parseChannelModesGo_all_sigils 0 sig hs,
   fun hc => parseChannelModesGo_append 0 sig c rest hs hc⟩

/-- Witness for the amended C4: the repository's own test vector
`"&@SomeNick"` gives nickname `"SomeNick"` and modes `CmAdmin ||| CmOp = 12`,
and the all-sigil input `"&@"` gives `("", 0)`. -/
theorem parseChannelModes_amended_witness :
    ParseChannelModes "&@".toList = ([], 0) ∧
    ParseChannelModes ("&@".toList ++ 'S' :: "omeNick".toList)
      = ('S' :: "omeNick".toList, sigilBits 0 "&@".toList) :=
  ⟨(parseChannelModes_amended "&@".toList 'S' "omeNick".toList (by decide)).1,
   (parseChannelModes_amended "&@".toList 'S' "omeNick".toList (by decide)).2
      (by decide)⟩

/-- C6 counterexample: the claim says the three predicates partition all
strings ("exactly one holds"). On `"#a!b@c"` both `IsChan` and `IsHostmask`
hold (and `IsName` fails), so two of the three hold at once. -/
theorem entity_predicates_overlap :
    IsChan "#a!b@c".toList = true ∧ IsHostmask "#a!b@c".toList = true ∧
    IsName "#a!b@c".toList = false := by decide

/-- C6 (amended): every string satisfies at least one of the three
predicates, and `IsName` holds exactly when neither `IsChan` nor
`IsHostmask` does, but `IsChan` and `IsHostmask` may hold simultaneously,
so the three do not partition. A string whose first `'@'` occurs before its
first `'!'` is never a hostmask (so, when it is not channel-shaped, it is a
name). -/
theorem entity_classification (e : List Char) :
    (IsName e = true ↔ (IsChan e = false ∧ IsHostmask e = false)) ∧
    (IsChan e = true ∨ IsHostmask e = true ∨ IsName e = true) ∧
    (∀ a b, strIndex? '!' e = some a → strIndex? '@' e = some b → b < a →
      IsHostmask e = false) := by
  refine ⟨?_, ?_, ?_⟩
  · cases hc : IsChan e <;> cases hh : IsHostmask e <;> simp [IsName, hc, hh]
  · cases hc : IsChan e <;> cases hh : IsHostmask e <;> simp [IsName, hc, hh]
  · intro a b ha hb hlt
    simp only [IsHostmask, ha, hb, decide_eq_false_iff_not]
    omega

/-- Witness for the amended C6: `"a@b!c"` (first `'@'` at 1, first `'!'` at
3) is not a hostmask. -/
theorem entity_classification_witness : IsHostmask "a@b!c".toList = false :=
  (entity_classification "a@b!c".toList).2.2 3 1 (by decide) (by decide)
    (by decide)

/-! ### Shared lemmas about `Command` and `atoi?` -/

theorem strIndex?_cons_of_ne {ch c : Char} (l : List Char) (h : ¬(c = ch)) :
    strIndex? ch (c :: l) = (strIndex? ch l).map (· + 1) := by
  simp [strIndex?, h]

theorem commandFrom_token_space (tok rest : List Char) (h : ' ' ∉ tok) :
    commandFrom (tok ++ ' ' :: rest) = some (toUpperStr tok) := by
  simp only [commandFrom, strIndex?_append_cons_self rest h, List.take_left]

theorem commandFrom_no_space (tok : List Char) (h : ' ' ∉ tok) :
    commandFrom tok = none := by
  simp only [commandFrom, strIndex?_eq_none_iff.mpr h]

theorem atoiCore?_isSome_iff (neg : Bool) (ds : List Char) :
    (atoiCore? neg ds).isSome = true ↔
      (ds ≠ [] ∧ ds.all Char.isDigit = true ∧
        (if neg then digitsVal ds ≤ 2 ^ 63 else digitsVal ds ≤ 2 ^ 63 - 1)) := by
  by_cases h1 : ds.isEmpty = true
  · have hnil : ds = [] := by
      cases ds with
      | nil => rfl
      | cons a l => simp at h1
    subst hnil
    simp [atoiCore?]
  · have hne : ds ≠ [] := by
      cases ds with
      | nil => simp at h1
      | cons a l => simp
    by_cases h2 : ds.all Char.isDigit = true
    · cases neg
      · by_cases h3 : digitsVal ds ≤ 2 ^ 63 - 1 <;>
          simp [atoiCore?, h1, h2, h3, hne]
      · by_cases h3 : digitsVal ds ≤ 2 ^ 63 <;>
          simp [atoiCore?, h1, h2, h3, hne]
    · simp [atoiCore?, h1, h2, hne]

theorem atoi?_isSome_iff (c : List Char) : (atoi? c).isSome = true ↔ AtoiAccepts c := by
  have hplus : Char.isDigit '+' = false := by decide
  have hminus : Char.isDigit '-' = false := by decide
  rcases c with _ | ⟨a, cs⟩
  · constructor
    · intro h
      simp [atoi?] at h
    · rintro ⟨sgn, ds, hc, hsgn, hne, hall, hr⟩
      rcases List.append_eq_nil.mp hc.symm with ⟨h1, h2⟩
      exact absurd h2 hne
  · by_cases hp : a = '+'
    · subst hp
      rw [show atoi? ('+' :: cs) = atoiCore? false cs from by simp [atoi?],
        atoiCore?_isSome_iff]
      constructor
      · rintro ⟨hne, hall, hr⟩
        exact ⟨['+'], cs, rfl, Or.inr (Or.inl rfl), hne, hall, by simpa using hr⟩
      · rintro ⟨sgn, ds, hc, hsgn, hne, hall, hr⟩
        rcases hsgn with rfl | rfl | rfl
        · simp only [List.nil_append] at hc
          subst hc
          simp [List.all_cons, hplus] at hall
        · have hcs : cs = ds := by simpa using hc
          subst hcs
          exact ⟨hne, hall, by simpa using hr⟩
        · simp at hc
    · by_cases hm : a = '-'
      · subst hm
        rw [show atoi? ('-' :: cs) = atoiCore? true cs from by simp [atoi?],
          atoiCore?_isSome_iff]
        constructor
        · rintro ⟨hne, hall, hr⟩
          exact ⟨['-'], cs, rfl, Or.inr (Or.inr rfl), hne, hall, by simpa using hr⟩
        · rintro ⟨sgn, ds, hc, hsgn, hne, hall, hr⟩
          rcases hsgn with rfl | rfl | rfl
          · simp only [List.nil_append] at hc
            subst hc
            simp [List.all_cons, hminus] at hall
          · simp at hc
          · have hcs : cs = ds := by simpa using hc
            subst hcs
            exact ⟨hne, hall, by simpa using hr⟩
      · rw [show atoi? (a :: cs) = atoiCore? false (a :: cs) from by
            simp [atoi?, hp, hm],
          atoiCore?_isSome_iff]
        constructor
        · rintro ⟨hne, hall, hr⟩
          exact ⟨[], a :: cs, rfl, Or.inl rfl, hne, hall, by simpa using hr⟩
        · rintro ⟨sgn, ds, hc, hsgn, hne, hall, hr⟩
          rcases hsgn with rfl | rfl | rfl
          · simp only [List.nil_append] at hc
            subst hc
            exact ⟨by simp, hall, by simpa using hr⟩
          · exact absurd (by simpa using congrArg List.head? hc) hp
          · exact absurd (by simpa using congrArg List.head? hc) hm

/-- C3 counterexample: the claim says a message whose command token is
followed by no space has `Command() = ""`. On `":A CMD"` the code reaches
`s[:strings.Index(s, " ")]` with `s = "CMD"` and index `-1`, a panic
(`none` in the model), not the empty string. -/
theorem command_no_space_not_empty :
    Command ":A CMD".toList = none ∧ Command ":A CMD".toList ≠ some [] := by
  decide

/-- C3 (amended): when the command token is followed by a space, `Command()`
returns that token uppercased; when a prefixed message has no room for a
command after the prefix (no space, or the first space is the final
character), `Command()` returns the empty string; but when a command token
is present and followed by no further space, `Command()` panics (`none`),
it does not return the empty string. -/
theorem command_cases (p tok rest : List Char) :
    (' ' ∉ p →
      (Command (':' :: p) = some [] ∧
       Command (':' :: (p ++ [' '])) = some [] ∧
       (' ' ∉ tok →
         Command (':' :: (p ++ ' ' :: (tok ++ ' ' :: rest)))
           = some (toUpperStr tok)) ∧
       (' ' ∉ tok → tok ≠ [] → Command (':' :: (p ++ ' ' :: tok)) = none))) ∧
    (tok ≠ [] → tok.head? ≠ some ':' → ' ' ∉ tok →
      (Command (tok ++ ' ' :: rest) = some (toUpperStr tok) ∧
       Command tok = none)) := by
  have hco : ¬((':' : Char) = ' ') := by decide
  constructor
  · intro hp
    refine ⟨?_, ?_, ?_, ?_⟩
    · have h1 : strIndex? ' ' (':' :: p) = none := by
        rw [strIndex?_cons_of_ne p hco, strIndex?_eq_none_iff.mpr hp]
        rfl
      simp [Command, IsEmptyM, HasPrefixM, h1]
    · have h2 : strIndex? ' ' (':' :: (p ++ [' '])) = some (p.length + 1) := by
        rw [strIndex?_cons_of_ne _ hco, strIndex?_append_cons_self [] hp]
        rfl
      have hlen : ¬(p.length + 1 + 1 < (':' :: (p ++ [' '])).length) := by
        simp only [List.length_cons, List.length_append, List.length_nil]
        omega
      simp [Command, IsEmptyM, HasPrefixM, h2, hlen]
    · intro ht
      have h3 : strIndex? ' ' (':' :: (p ++ ' ' :: (tok ++ ' ' :: rest)))
          = some (p.length + 1) := by
        rw [strIndex?_cons_of_ne _ hco, strIndex?_append_cons_self _ hp]
        rfl
      have hlen : p.length + 1 + 1
          < (':' :: (p ++ ' ' :: (tok ++ ' ' :: rest))).length := by
        simp only [List.length_cons, List.length_append]
        omega
      have hassoc : ':' :: (p ++ ' ' :: (tok ++ ' ' :: rest))
          = (':' :: (p ++ [' '])) ++ (tok ++ ' ' :: rest) := by
        simp
      have hdrop : (':' :: (p ++ ' ' :: (tok ++ ' ' :: rest))).drop (p.length + 1 + 1)
          = tok ++ ' ' :: rest := by
        rw [hassoc, List.drop_left' (by
          simp only [List.length_cons, List.length_append, List.length_nil])]
      simp [Command, IsEmptyM, HasPrefixM, h3, hlen, hdrop,
        commandFrom_token_space tok rest ht]
    · intro ht htok
      have h4 : strIndex? ' ' (':' :: (p ++ ' ' :: tok)) = some (p.length + 1) := by
        rw [strIndex?_cons_of_ne _ hco, strIndex?_append_cons_self _ hp]
        rfl
      have hlen : p.length + 1 + 1 < (':' :: (p ++ ' ' :: tok)).length := by
        have : 0 < tok.length := List.length_pos.mpr htok
        simp only [List.length_cons, List.length_append]
        omega
      have hassoc : ':' :: (p ++ ' ' :: tok) = (':' :: (p ++ [' '])) ++ tok := by
        simp
      have hdrop : (':' :: (p ++ ' ' :: tok)).drop (p.length + 1 + 1) = tok := by
        rw [hassoc, List.drop_left' (by
          simp only [List.length_cons, List.length_append, List.length_nil])]
      simp [Command, IsEmptyM, HasPrefixM, h4, hlen, hdrop,
        commandFrom_no_space tok ht, htok]
  · intro htok hhead ht
    obtain ⟨a, ts, rfl⟩ := List.exists_cons_of_ne_nil htok
    have ha : ¬(a = ':') := by simpa using hhead
    constructor
    · have hm : Command ((a :: ts) ++ ' ' :: rest)
          = commandFrom ((a :: ts) ++ ' ' :: rest) := by
        simp [Command, IsEmptyM, HasPrefixM, ha]
      rw [hm, commandFrom_token_space _ rest ht]
    · have hm2 : Command (a :: ts) = commandFrom (a :: ts) := by
        simp [Command, IsEmptyM, HasPrefixM, ha]
      rw [hm2, commandFrom_no_space _ ht]

/-- Witness for the amended C3 at concrete inputs. -/
theorem command_cases_witness :
    Command (':' :: ("A".toList ++ ' ' :: ("CMD".toList ++ ' ' :: "x".toList)))
      = some (toUpperStr "CMD".toList) ∧
    Command ("cmd".toList ++ ' ' :: "x".toList) = some (toUpperStr "cmd".toList) :=
  ⟨((command_cases "A".toList "CMD".toList "x".toList).1 (by decide)).2.2.1
      (by decide),
   ((command_cases "A".toList "cmd".toList "x".toList).2 (by decide) (by decide)
      (by decide)).1⟩

/-- C7 counterexample: the claim says `IsNumeric()` is true iff `Command()`
consists only of decimal digits. On the line `":A -12 B"` the command is
`"-12"`, which contains the non-digit `'-'`, yet `strconv.Atoi` accepts it,
so `IsNumeric()` is true. -/
theorem isNumeric_not_all_digits :
    IsNumeric ":A -12 B".toList = some true ∧
    Command ":A -12 B".toList = some "-12".toList ∧
    ("-12".toList.all Char.isDigit) = false := by decide

/-- C7 (amended): on every raw line where `Command()` returns a value `c`
(it can panic, see C1), `IsNumeric()` is true iff `c` is accepted by Go's
`strconv.Atoi` — an optional sign followed by one or more decimal digits
whose value fits the signed 64-bit range — which is not the same as `c`
consisting only of digits; when `Atoi` accepts with value `v`, `Numeric()`
returns `v`, otherwise `Numeric()` returns `-1`. -/
theorem numeric_spec (m c : List Char) (h : Command m = some c) :
    (IsNumeric m = some true ↔ AtoiAccepts c) ∧
    (∀ v : Int, atoi? c = some v → Numeric m = some v) ∧
    (IsNumeric m = some false → Numeric m = some (-1)) := by
  have hin : IsNumeric m = some ((atoi? c).isSome) := by
    rw [IsNumeric, h]
    rfl
  refine ⟨?_, ?_, ?_⟩
  · rw [hin]
    constructor
    · intro hh
      have hs : (atoi? c).isSome = true := by
        simpa using hh
      exact (atoi?_isSome_iff c).mp hs
    · intro ha
      have hs := (atoi?_isSome_iff c).mpr ha
      simp [hs]
  · intro v hv
    rw [Numeric, h]
    simp [hv]
  · intro hf
    rw [hin] at hf
    have hs : (atoi? c).isSome = false := by
      simpa using hf
    have hnone : atoi? c = none := by
      cases hc : atoi? c with
      | none => rfl
      | some v => rw [hc] at hs; simp at hs
    rw [Numeric, h]
    simp [hnone]

/-- Witness for the amended C7: on `":A 671 B"` the command `"671"` is
accepted by `Atoi` with value 671. -/
theorem numeric_spec_witness :
    IsNumeric ":A 671 B".toList = some true ∧
    Numeric ":A 671 B".toList = some 671 :=
  ⟨(numeric_spec ":A 671 B".toList "671".toList (by decide)).1.mpr
      ⟨[], "671".toList, rfl, Or.inl rfl, by decide, by decide, by decide⟩,
   (numeric_spec ":A 671 B".toList "671".toList (by decide)).2.1 671 (by decide)⟩

/-! ### Shared lemmas about `StripControlCodes` -/

theorem normalStep_clean (c : Char) :
    ∀ x ∈ (normalStep c).1, cleanChar x = true := by
  intro x hx
  unfold normalStep at hx
  split_ifs at hx with h1 h2
  · simp at hx
  · simp at hx
  · rw [List.mem_singleton] at hx
    subst hx
    simp only [cleanChar, Bool.not_eq_true', Bool.or_eq_false_iff,
      decide_eq_false_iff_not]
    simp only [Bool.or_eq_true, decide_eq_true_eq] at h1
    push_neg at h1
    refine ⟨⟨⟨⟨⟨?_, ?_⟩, ?_⟩, ?_⟩, ?_⟩, ?_⟩ <;> omega

theorem stripStep_out (m : Nat) (c : Char) (nx : Option Char) :
    (stripStep m c nx).1 = [] ∨ (stripStep m c nx).1 = (normalStep c).1 := by
  unfold stripStep
  repeat' split
  all_goals simp

theorem stripGo_clean (m : Nat) (l : List Char) :
    ∀ x ∈ stripGo m l, cleanChar x = true := by
  induction l generalizing m with
  | nil =>
    intro x hx
    simp [stripGo] at hx
  | cons c rest ih =>
    intro x hx
    simp only [stripGo, List.mem_append] at hx
    rcases hx with hx | hx
    · rcases stripStep_out m c rest.head? with h | h
      · rw [h] at hx
        simp at hx
      · rw [h] at hx
        exact normalStep_clean c x hx
    · exact ih _ x hx

theorem stripGo_id_of_clean (l : List Char) (h : ∀ x ∈ l, cleanChar x = true) :
    stripGo 0 l = l := by
  induction l with
  | nil => rfl
  | cons c rest ih =>
    have hc : cleanChar c = true := h c (List.mem_cons_self c rest)
    have hrest : ∀ x ∈ rest, cleanChar x = true := fun x hx =>
      h x (List.mem_cons_of_mem _ hx)
    simp only [cleanChar, Bool.not_eq_true', Bool.or_eq_false_iff,
      decide_eq_false_iff_not] at hc
    obtain ⟨⟨⟨⟨⟨g2, g3⟩, g15⟩, g22⟩, g29⟩, g31⟩ := hc
    have hstep : stripStep 0 c rest.head? = ([c], 0) := by
      show normalStep c = ([c], 0)
      unfold normalStep
      rw [if_neg (by simp [g2, g15, g22, g29, g31]), if_neg g3]
    simp [stripGo, hstep, ih hrest]

/-! ### C5 and C9 claim theorems -/

/-- C5 counterexample: the claim says a comma after the color marker's
foreground digit(s) is absorbed only when followed by a digit, so in
`"\x031,x"` the comma should be emitted. The code's one-digit state absorbs
the comma unconditionally: the output is `"x"`, with no comma. -/
theorem strip_absorbs_comma_after_one_digit :
    StripControlCodes (Char.ofNat 3 :: "1,x".toList) = "x".toList ∧
    ',' ∉ StripControlCodes (Char.ofNat 3 :: "1,x".toList) := by decide

/-- C5 (amended): the one-character lookahead applies only after two
foreground digits: there a comma followed by a non-digit (or by nothing) is
emitted unchanged. After a single foreground digit a comma is absorbed into
the color sequence unconditionally, so it is dropped even when the next
character is not a digit. -/
theorem strip_comma_lookahead (d1 d2 : Char) (rest : List Char)
    (h1 : isNumC d1 = true) (h2 : isNumC d2 = true)
    (hr : ∀ h, rest.head? = some h → isNumC h = false) :
    StripControlCodes (Char.ofNat 3 :: d1 :: d2 :: ',' :: rest)
      = ',' :: StripControlCodes rest ∧
    StripControlCodes (Char.ofNat 3 :: d1 :: ',' :: rest)
      = StripControlCodes rest := by
  have hn3 : normalStep (Char.ofNat 3) = ([], 1) := by decide
  have hnc : normalStep ',' = ([','], 0) := by decide
  have hic : isNumC ',' = false := by decide
  constructor
  · cases rest with
    | nil => simp [StripControlCodes, stripGo, stripStep, hn3, hnc, h1, h2]
    | cons h t =>
      have hh : isNumC h = false := hr h rfl
      simp [StripControlCodes, stripGo, stripStep, hn3, hnc, h1, h2, hh]
  · cases rest with
    | nil => simp [StripControlCodes, stripGo, stripStep, hn3, hnc, h1, hic]
    | cons h t =>
      have hh : isNumC h = false := hr h rfl
      simp [StripControlCodes, stripGo, stripStep, hn3, hnc, h1, hic, hh]

/-- Witness for the amended C5: `"\x0312,x"` keeps its comma (two digits,
lookahead fails), evaluating both conclusions at concrete inputs. -/
theorem strip_comma_lookahead_witness :
    StripControlCodes (Char.ofNat 3 :: '1' :: '2' :: ',' :: "x".toList)
      = ',' :: StripControlCodes "x".toList ∧
    StripControlCodes (Char.ofNat 3 :: '1' :: ',' :: "x".toList)
      = StripControlCodes "x".toList :=
  strip_comma_lookahead '1' '2' "x".toList (by decide) (by decide)
    (by intro h hh; cases hh; decide)

/-- C9: `StripControlCodes` is idempotent — every character it emits is
outside the set of control bytes it reacts to, so a second pass is the
identity. -/
theorem stripControlCodes_idempotent (text : List Char) :
    StripControlCodes (StripControlCodes text) = StripControlCodes text :=
  stripGo_id_of_clean _ (stripGo_clean 0 text)

/-! ### Shared lemmas for the round-trip and trimming claims -/

theorem drop_past_append (a b : List Char) (c : Char) :
    (a ++ c :: b).drop (a.length + 1) = b := by
  rw [show a ++ c :: b = (a ++ [c]) ++ b by simp,
    List.drop_left' (by simp)]

theorem take_past_append (a b : List Char) (c : Char) :
    (a ++ c :: b).take (a.length + 1) = a ++ [c] := by
  rw [show a ++ c :: b = (a ++ [c]) ++ b by simp,
    List.take_left' (by simp)]

theorem skipPfx_structured (p R : List Char) (hp : ' ' ∉ p) (hR : R ≠ []) :
    skipPfx (':' :: (p ++ ' ' :: R)) = some R := by
  unfold skipPfx
  simp only [List.drop_succ_cons, List.drop_zero]
  rw [strIndex?_append_cons_self R hp]
  have hlen : p.length + 1 < (p ++ ' ' :: R).length := by
    have := List.length_pos.mpr hR
    simp only [List.length_append, List.length_cons]
    omega
  show (if p.length + 1 < (p ++ ' ' :: R).length
      then some ((p ++ ' ' :: R).drop (p.length + 1)) else none) = some R
  rw [if_pos hlen, drop_past_append]

/-- C8 (amended): for every line `":" + p + " " + cmd + " " + mid + " :" + t`
where `p` and `cmd` contain no colon and no space and `mid` contains no
colon and does not end with a space, `Trailing()` returns `t` exactly
(including embedded spaces) and `Middle()` returns `mid` with the trailing
portion and its `':'` marker excluded. (The original claim constrained only
colons; a space inside `p` or `cmd` shifts the word-skipping scan, and a
trailing space of `mid` is trimmed by `Middle`, so those cases are
excluded.) -/
theorem trailing_middle_roundtrip (p cmd mid t : List Char)
    (hp1 : ' ' ∉ p) (hp2 : ':' ∉ p) (hc1 : ' ' ∉ cmd) (hc2 : ':' ∉ cmd)
    (hm2 : ':' ∉ mid) (hm3 : mid.getLast? ≠ some ' ') :
    Trailing (':' :: (p ++ ' ' :: (cmd ++ ' ' :: (mid ++ ' ' :: ':' :: t)))) = t ∧
    Middle (':' :: (p ++ ' ' :: (cmd ++ ' ' :: (mid ++ ' ' :: ':' :: t)))) = mid := by
  have hRne : cmd ++ ' ' :: (mid ++ ' ' :: ':' :: t) ≠ [] := by
    cases cmd <;> simp
  have hskip := skipPfx_structured p _ hp1 hRne
  have hA : ':' ∉ cmd ++ ' ' :: (mid ++ [' ']) := by
    intro hmem
    rcases List.mem_append.mp hmem with h | h
    · exact hc2 h
    · rcases List.mem_cons.mp h with h | h
      · exact absurd h (by decide)
      · rcases List.mem_append.mp h with h | h
        · exact hm2 h
        · rw [List.mem_singleton] at h
          exact absurd h (by decide)
  have hRassoc : cmd ++ ' ' :: (mid ++ ' ' :: ':' :: t)
      = (cmd ++ ' ' :: (mid ++ [' '])) ++ ':' :: t := by simp
  have hidxColon : strIndex? ':' (cmd ++ ' ' :: (mid ++ ' ' :: ':' :: t))
      = some (cmd.length + mid.length + 2) := by
    rw [hRassoc, strIndex?_append_cons_self t hA]
    congr 1
    simp only [List.length_append, List.length_cons, List.length_nil]
    omega
  constructor
  · simp [Trailing, IsEmptyM, HasPrefixM, hskip, hidxColon]
    cases t with
    | nil =>
      rw [if_neg (by simp only [List.length_nil]; omega)]
    | cons a ts =>
      have hdropT : List.drop (cmd.length + mid.length + 2 + 1)
          (cmd ++ ' ' :: (mid ++ ' ' :: ':' :: a :: ts)) = a :: ts := by
        rw [show cmd ++ ' ' :: (mid ++ ' ' :: ':' :: a :: ts)
            = (cmd ++ ' ' :: (mid ++ [' '])) ++ ':' :: a :: ts from by simp,
          show cmd.length + mid.length + 2 + 1
            = (cmd ++ ' ' :: (mid ++ [' '])).length + 1 from by
              simp only [List.length_append, List.length_cons, List.length_nil]
              omega]
        exact drop_past_append _ _ ':'
      rw [if_pos (by simp only [List.length_cons]; omega), hdropT]
  · have hidxSpace : strIndex? ' ' (cmd ++ ' ' :: (mid ++ ' ' :: ':' :: t))
        = some cmd.length := strIndex?_append_cons_self _ hc1
    have hcond : cmd.length < (cmd ++ ' ' :: (mid ++ ' ' :: ':' :: t)).length := by
      simp only [List.length_append, List.length_cons]
      omega
    have hdropCmd : List.drop (cmd.length + 1) (cmd ++ ' ' :: (mid ++ ' ' :: ':' :: t))
        = mid ++ ' ' :: ':' :: t := drop_past_append cmd _ ' '
    have hA2 : ':' ∉ mid ++ [' '] := by
      intro hmem
      rcases List.mem_append.mp hmem with h | h
      · exact hm2 h
      · rw [List.mem_singleton] at h
        exact absurd h (by decide)
    have hidx2 : strIndex? ':' (mid ++ ' ' :: ':' :: t) = some (mid.length + 1) := by
      rw [show mid ++ ' ' :: ':' :: t = (mid ++ [' ']) ++ ':' :: t from by simp,
        strIndex?_append_cons_self t hA2]
      congr 1
      simp only [List.length_append, List.length_cons, List.length_nil]
    have htake : List.take (mid.length + 1) (mid ++ ' ' :: ':' :: t) = mid ++ [' '] :=
      take_past_append mid (':' :: t) ' '
    have htrim : trimRightSpaces (mid ++ [' ']) = mid := by
      unfold trimRightSpaces
      rw [List.rdropWhile_concat_pos _ _ _ (by decide),
        List.rdropWhile_eq_self_iff]
      intro hl
      simp only [decide_eq_true_eq]
      intro hsp
      exact hm3 (by rw [List.getLast?_eq_getLast mid hl, hsp])
    simp [Middle, IsEmptyM, HasPrefixM, hskip, hidxSpace, hcond, hdropCmd, hidx2,
      htake, htrim]

/-- Witness for the amended C8: the repository's own test line. -/
theorem trailing_middle_roundtrip_witness :
    Trailing (':' :: ("SomeNick!SomeUser@SomeHost".toList ++ ' ' ::
        ("671".toList ++ ' ' :: ("yournick othernick".toList ++ ' ' :: ':' ::
          "is using a secure connection".toList))))
      = "is using a secure connection".toList ∧
    Middle (':' :: ("SomeNick!SomeUser@SomeHost".toList ++ ' ' ::
        ("671".toList ++ ' ' :: ("yournick othernick".toList ++ ' ' :: ':' ::
          "is using a secure connection".toList))))
      = "yournick othernick".toList :=
  trailing_middle_roundtrip "SomeNick!SomeUser@SomeHost".toList "671".toList
    "yournick othernick".toList "is using a secure connection".toList
    (by decide) (by decide) (by decide) (by decide) (by decide) (by decide)

/-- C10: `NewMessage` trims leading as well as trailing NUL, LF and CR
bytes before the embedded-NUL check: prepending or appending a cutset byte
does not change the result, and on a string with no cutset byte at either
end the stored raw text is the string itself unless a NUL remains inside,
in which case the message is empty. -/
theorem newMessage_trim (s : List Char) (c : Char) :
    (isCut c = true →
      NewMessage (c :: s) = NewMessage s ∧ NewMessage (s ++ [c]) = NewMessage s) ∧
    (s.head?.all (fun h => !isCut h) = true →
     s.getLast?.all (fun h => !isCut h) = true →
      NewMessage s = if s.contains (Char.ofNat 0) then [] else s) := by
  constructor
  · intro hcut
    constructor
    · simp [NewMessage, goTrim, List.dropWhile_cons, hcut]
    · have hgo : goTrim (s ++ [c]) = goTrim s := by
        unfold goTrim
        rw [List.dropWhile_append]
        by_cases hd : (s.dropWhile isCut).isEmpty
        · rw [if_pos hd]
          have h1 : s.dropWhile isCut = [] := by
            cases hdw : s.dropWhile isCut with
            | nil => rfl
            | cons a l => rw [hdw] at hd; simp at hd
          rw [h1]
          simp [List.dropWhile_cons, hcut]
        · rw [if_neg hd, List.rdropWhile_concat_pos _ _ _ hcut]
      simp [NewMessage, hgo]
  · intro hhead hlast
    have h1 : s.dropWhile isCut = s := by
      cases s with
      | nil => rfl
      | cons a l =>
        have ha : isCut a = false := by simpa using hhead
        simp [List.dropWhile_cons, ha]
    have h2 : List.rdropWhile isCut s = s := by
      rw [List.rdropWhile_eq_self_iff]
      intro hl
      have hsome := List.getLast?_eq_getLast s hl
      have hg : isCut (s.getLast hl) = false := by
        rw [hsome] at hlast
        simpa using hlast
      simp [hg]
    simp [NewMessage, goTrim, h1, h2]

/-- Witness for C10: `NewMessage "\r\nPING"` stores `"PING"`. -/
theorem newMessage_trim_witness :
    NewMessage (Char.ofNat 13 :: Char.ofNat 10 :: "PING".toList) = "PING".toList := by
  rw [((newMessage_trim (Char.ofNat 10 :: "PING".toList) (Char.ofNat 13)).1
      (by decide)).1,
    ((newMessage_trim "PING".toList (Char.ofNat 10)).1 (by decide)).1,
    (newMessage_trim "PING".toList 'x').2 (by decide) (by decide)]
  decide

/-- C8 counterexample: the original claim constrains `p`, `cmd`, `mid` only
to be colon-free. With `p = "a b"` (a space inside the prefix), `cmd = "c"`,
`mid = "m"`, `t = "t"`, the word-skipping scan is shifted and `Middle()`
returns `"c m"` instead of `mid = "m"`. -/
theorem middle_not_mid_when_space_in_prefix :
    Middle (':' :: ("a b".toList ++ ' ' ::
        ("c".toList ++ ' ' :: ("m".toList ++ ' ' :: ':' :: "t".toList))))
      = "c m".toList ∧
    "c m".toList ≠ "m".toList := by decide
